import Mathlib

/-!
Verification development for the PER encoder core of the `rasn` codec:
a shallow embedding of `src/per/enc.rs`, `src/per/enc/error.rs`,
`src/per.rs` and `src/types/constraints.rs`, together with theorems
settling the specification claims about the encoder.

Bit buffers (`BitString`, a `bitvec` with `Msb0` order) are modelled as
`List Bool`; byte vectors as `List Nat` (each entry < 256); `usize`
arithmetic wraps at 2^64 and `i128` arithmetic at 2^128 where the source
uses `wrapping_sub`.  Rust panics (`todo!()`, `panic!`) and recoverable
errors are both modelled in one `Except` error type with constructors
marked as panics kept distinct from the recoverable ones.
-/

deriving instance DecidableEq for Except

/-- Reduction of a monadic bind on a successful `Except` value. -/
theorem except_bind_ok {ε α β : Type} (a : α) (f : α → Except ε β) :
    (Except.ok a >>= f : Except ε β) = f a := rfl

/-- Reduction of a monadic bind on a failed `Except` value. -/
theorem except_bind_error {ε α β : Type} (e : ε) (f : α → Except ε β) :
    (Except.error e >>= f : Except ε β) = .error e := rfl

namespace Rasn

/-- Tag of a type.  The schema layer's `Tag` (class + number) is not under
`src/`.  Modelled from the spec: a `Tag` carries a stable total order used
to canonically order SET fields and resolve CHOICE alternatives; we
represent a tag by its rank in that total order, a natural number. -/
abbrev Tag := Nat

/-- Bits of one byte, most significant bit first (`bitvec` `Msb0` order,
as produced by `BitString::from_slice` / `store_be::<u8>`). -/
def byteBits (b : Nat) : List Bool :=
  (List.range 8).map fun i => b / 2 ^ (7 - i) % 2 == 1

/-- Bits of a byte slice, `Msb0` order (`BitString::from_slice`). -/
def bytesToBits (bytes : List Nat) : List Bool :=
  (bytes.map byteBits).flatten

/-- One byte of an at-most-8-bit group, missing low bits filled with zero
(the storage layout `BitVec::<u8, Msb0>::into_vec` exposes). -/
def byteOfBits (l : List Bool) : Nat :=
  (l ++ List.replicate (8 - l.length) false).foldl
    (fun acc b => 2 * acc + (if b then 1 else 0)) 0

/-- The byte vector underlying a bit buffer (`BitString::into_vec`): the
bits chunked in groups of eight, a trailing incomplete byte padded with
zero bits. -/
def bitsToBytesAux : Nat → List Bool → List Nat
  | _, [] => []
  | 0, _ :: _ => []
  | fuel + 1, l@(_ :: _) => byteOfBits (l.take 8) :: bitsToBytesAux fuel (l.drop 8)

/-- The byte vector of a bit buffer; the fuel `l.length` strictly bounds
the recursion depth (each step drops eight bits of a non-empty list), so
the aux function never hits its fuel-exhausted branch. -/
def bitsToBytes (l : List Bool) : List Nat := bitsToBytesAux l.length l

/-- Binary digit count by structural fuel recursion; the fuel bounds the
recursion depth and `n` itself always suffices (each step halves). -/
def bitLenAux : Nat → Nat → Nat
  | _, 0 => 0
  | 0, _ + 1 => 0
  | fuel + 1, n + 1 => bitLenAux fuel ((n + 1) / 2) + 1

/-- Number of bits of a natural number (0 for 0). -/
def bitLen (n : Nat) : Nat := bitLenAux n n

/-- Big-endian byte representation of `v` in exactly `k` bytes. -/
def bytesBEFixed (v : Nat) (k : Nat) : List Nat :=
  (List.range k).map fun i => v / 256 ^ (k - 1 - i) % 256

/-- Minimal big-endian bytes of a `BigUint`
(`num_bigint::BigUint::to_bytes_be`; a single zero byte for zero). -/
def to_bytes_be (n : Nat) : List Nat :=
  if n = 0 then [0] else bytesBEFixed n ((bitLen n + 7) / 8)

/-- Minimal two's-complement big-endian bytes of a `BigInt`
(`num_bigint::BigInt::to_signed_bytes_be`). -/
def to_signed_bytes_be (n : Int) : List Nat :=
  let k := if 0 ≤ n then (bitLen n.toNat + 8) / 8 else (bitLen (n.natAbs - 1) + 8) / 8
  bytesBEFixed (n % (2 ^ (8 * k))).toNat k

/-- `usize::wrapping_sub`, for operands below 2^64. -/
def wrappingSubUsize (e s : Nat) : Nat :=
  (e + (2 ^ 64 - s % 2 ^ 64)) % 2 ^ 64

/-- `i128::wrapping_sub`: the difference reduced into [-2^127, 2^127).
The powers are computed in `Nat` and cast, so that they reduce fast. -/
def wrappingSubI128 (e s : Int) : Int :=
  (e - s + Int.ofNat (2 ^ 127)) % Int.ofNat (2 ^ 128) - Int.ofNat (2 ^ 127)

/-- `types::constraints::Range<T>`: optional lower and upper bound.  The
source field `end` is a Lean keyword, so it is called `stop` here. -/
structure RangeC (α : Type) where
  start : Option α
  stop : Option α
deriving DecidableEq

/-- `Range::<usize>::range()` as written in `constraints.rs`:
`end.wrapping_sub(start) + (start == 0 ? 1 : 0)` when both bounds are
present, `None` otherwise. -/
def RangeC.rangeUsize (r : RangeC Nat) : Option Nat :=
  match r.start, r.stop with
  | some s, some e => some (wrappingSubUsize e s + (if s = 0 then 1 else 0))
  | _, _ => none

/-- `Range::<i128>::range()`, the same definition at `i128`. -/
def RangeC.rangeI128 (r : RangeC Int) : Option Int :=
  match r.start, r.stop with
  | some s, some e => some (wrappingSubI128 e s + (if s = 0 then 1 else 0))
  | _, _ => none

/-- `Range::contains` at `usize`. -/
def RangeC.contains (r : RangeC Nat) (x : Nat) : Bool :=
  (r.start.all fun s => decide (s ≤ x)) && (r.stop.all fun e => decide (x ≤ e))

/-- `Range::contains` at `i128` (used by `bigint_contains` on values that
fit; the value side is exact big-integer arithmetic). -/
def RangeC.bigint_contains (r : RangeC Int) (x : Int) : Bool :=
  (r.start.all fun s => decide (s ≤ x)) && (r.stop.all fun e => decide (x ≤ e))

/-- `Range::<usize>::effective_value(..).into_inner()`: the offset from the
lower bound when one exists, the value itself otherwise.  The source
`debug_assert!`s `value >= start`; below the bound is outside contract. -/
def RangeC.effective_value (r : RangeC Nat) (x : Nat) : Nat :=
  match r.start with
  | some s => x - s
  | none => x

/-- `Range::effective_bigint_value`: `Left` (here `inl`) is the offset from
the lower bound, `Right` (`inr`) the raw value. -/
def RangeC.effective_bigint_value (r : RangeC Int) (value : Int) : Int ⊕ Int :=
  match r.start with
  | some s => .inl (value - s)
  | none => .inr value

/-- `constraints::Extensible<T>`: a base constraint plus the optional list
of extension constraints (`None` = not extensible). -/
structure ExtensibleC (α : Type) where
  constraint : α
  extensible : Option (List α)
deriving DecidableEq

/-- `constraints::Constraint`.  `Value` wraps a range over `i128`
(big-integer bounds in the source are `i128`), `Size` a range over
`usize`, `PermittedAlphabet` a character list; `Extensible` marks the
whole value extensible. -/
inductive Constraint where
  | value (v : ExtensibleC (RangeC Int))
  | size (s : ExtensibleC (RangeC Nat))
  | permittedAlphabet (a : ExtensibleC (List Nat))
  | extensible
deriving DecidableEq

/-- `Constraint::is_extensible`. -/
def Constraint.is_extensible : Constraint → Bool
  | .value v => v.extensible.isSome
  | .size s => s.extensible.isSome
  | .permittedAlphabet a => a.extensible.isSome
  | .extensible => true

/-- `Constraints::extensible`: whether any member constraint is extensible. -/
def Constraints.extensible (cs : List Constraint) : Bool :=
  cs.any Constraint.is_extensible

/-- `Constraints::size`: the first `Size` constraint, if any. -/
def Constraints.size (cs : List Constraint) : Option (ExtensibleC (RangeC Nat)) :=
  cs.findSome? fun c => match c with | .size s => some s | _ => none

/-- `Constraints::value`: the first `Value` constraint, if any. -/
def Constraints.value (cs : List Constraint) : Option (ExtensibleC (RangeC Int)) :=
  cs.findSome? fun c => match c with | .value v => some v | _ => none

/-- `per::enc::error::Error`, together with the two panic paths of the
encoder, kept as distinct constructors so that "fatal" (panicking) and
recoverable outcomes can be told apart: `todoPanic` models the `todo!()`
inside the extensible-bit closures, `fieldsPanic` the
`panic!("only sequence or set types are permitted for this method")`
inside `require_fields`. -/
inductive Error where
  | invalidLength (length : Nat) (expected : RangeC Nat)
  | der
  | custom (msg : String)
  | todoPanic
  | fieldsPanic
deriving DecidableEq

/-- `Error::check_length`. -/
def Error.check_length (length : Nat) (expected : RangeC Nat) : Except Error Unit :=
  if expected.contains length then .ok () else .error (.invalidLength length expected)

/-- `per::enc::EncoderOptions`. -/
structure EncoderOptions where
  aligned : Bool
  set_encoding : Bool
deriving DecidableEq

/-- `EncoderOptions::without_set_encoding`. -/
def EncoderOptions.without_set_encoding (o : EncoderOptions) : EncoderOptions :=
  { o with set_encoding := false }

/-- `BTreeMap` insert on a strictly key-sorted association list: an
existing binding of the key is replaced. -/
def btreeInsert {α : Type} : List (Nat × α) → Nat → α → List (Nat × α)
  | [], k, v => [(k, v)]
  | (k', v') :: rest, k, v =>
    if k < k' then (k, v) :: (k', v') :: rest
    else if k = k' then (k, v) :: rest
    else (k', v') :: btreeInsert rest k v

/-- `BTreeMap::entry(k).and_modify(f)`: modify the value at `k` when the
key is present, do nothing otherwise. -/
def btreeModify {α : Type} (m : List (Nat × α)) (k : Nat) (f : α → α) : List (Nat × α) :=
  m.map fun p => if p.1 = k then (p.1, f p.2) else p

/-- `per::enc::Encoder`: options, the plain output bit buffer, the
tag-keyed SET output map, the tag-keyed field presence map, and the
recorded extension-addition byte blocks. -/
structure Encoder where
  options : EncoderOptions
  output : List Bool
  set_output : List (Nat × List Bool)
  field_bitfield : List (Nat × Bool)
  extension_fields : List (List Nat)
deriving DecidableEq

/-- `Encoder::new`. -/
def Encoder.new (options : EncoderOptions) : Encoder :=
  ⟨options, [], [], [], []⟩

/-- Optionality of a field.  `types::fields::Field` is not under `src/`;
modelled from the spec: a field is required, optional, or has a default. -/
inductive FieldPresence where
  | required
  | optional
  | hasDefault
deriving DecidableEq

/-- Modelled from the spec: `types::fields::Field` (not under `src/`)
pairs a `Tag` with optionality metadata. -/
structure Field where
  tag : Tag
  presence : FieldPresence
deriving DecidableEq

/-- Modelled from the spec: `Fields::optional_and_default_fields` (the
`Fields` type is not under `src/`) keeps the OPTIONAL/DEFAULT fields. -/
def optional_and_default_fields (fields : List Field) : List Field :=
  fields.filter fun f => f.presence != FieldPresence.required

/-- `Variants::canonised` / `canonical_sort`: the field list sorted by the
canonical tag order. -/
def canonised (fields : List Field) : List Field :=
  fields.mergeSort fun a b => a.tag ≤ b.tag

/-- `Encoder::new_sequence_encoder`: a child encoder without set encoding
whose presence map holds `false` for every optional/default field. -/
def Encoder.new_sequence_encoder (self : Encoder) (fields : List Field) : Encoder :=
  { Encoder.new self.options.without_set_encoding with
    field_bitfield :=
      ((optional_and_default_fields fields).map fun f => (f.tag, false)).foldl
        (fun m p => btreeInsert m p.1 p.2) [] }

/-- `Encoder::new_set_encoder`: as for sequences but with set encoding on
and the field list canonised first. -/
def Encoder.new_set_encoder (self : Encoder) (fields : List Field) : Encoder :=
  { Encoder.new { self.options with set_encoding := true } with
    field_bitfield :=
      ((optional_and_default_fields (canonised fields)).map fun f => (f.tag, false)).foldl
        (fun m p => btreeInsert m p.1 p.2) [] }

/-- `per::enc::Input`: the four things `Encoder::extend` accepts. -/
inductive Input where
  | bit (b : Bool)
  | byte (b : Nat)
  | bits (l : List Bool)
  | bytes (l : List Nat)

/-- The bits each `Input` variant appends (`push`, `store_be::<u8>`,
`extend_from_bitslice`, byte-slice `extend`). -/
def Input.toBits : Input → List Bool
  | .bit b => [b]
  | .byte b => byteBits b
  | .bits l => l
  | .bytes l => bytesToBits l

/-- `Encoder::extend`: under set encoding the bits become the (fresh)
buffer inserted at `tag` in `set_output`; otherwise they are appended to
`output`. -/
def Encoder.extend (self : Encoder) (tag : Tag) (input : Input) : Encoder :=
  if self.options.set_encoding then
    { self with set_output := btreeInsert self.set_output tag input.toBits }
  else
    { self with output := self.output ++ input.toBits }

/-- `Encoder::bitstring_output`: concatenate the SET buffers in ascending
tag order (or take the plain output), then grow anything shorter than
8 bits to exactly 8 bits with zero bits. -/
def Encoder.bitstring_output (self : Encoder) : List Bool :=
  let output :=
    if self.options.set_encoding then (self.set_output.map Prod.snd).flatten
    else self.output
  if output.length < 8 then output ++ List.replicate (8 - output.length) false
  else output

/-- `Encoder::output` (the method; the name `output` is taken by the
field): the final byte vector. -/
def Encoder.output_vec (self : Encoder) : List Nat :=
  bitsToBytes self.bitstring_output

/-- `Encoder::require_fields`: panics when the presence map is empty. -/
def Encoder.require_fields (self : Encoder) : Except Error Unit :=
  if self.field_bitfield.isEmpty then .error .fieldsPanic else .ok ()

/-- `Encoder::set_bit`: require an aggregate scope, then flip the presence
flag at `tag` (only when that key already exists). -/
def Encoder.set_bit (self : Encoder) (tag : Tag) (bit : Bool) : Except Error Encoder := do
  let _ ← self.require_fields
  .ok { self with field_bitfield := btreeModify self.field_bitfield tag fun _ => bit }

/-- `Encoder::encode_none_with_tag` (and `encode_none`): record absence. -/
def Encoder.encode_none_with_tag (self : Encoder) (tag : Tag) : Except Error Encoder :=
  self.set_bit tag false

/-- `Encoder::pad_to_alignment` as a function of the `aligned` option:
append zero bits up to the next byte boundary in aligned mode. -/
def pad_to_alignment (aligned : Bool) (buffer : List Bool) : List Bool :=
  if aligned && (buffer.length % 8 != 0) then
    buffer ++ List.replicate (8 - buffer.length % 8) false
  else buffer

/-- `Encoder::encoded_extension_addition` (note: the source returns
`extension_fields.is_empty()`, i.e. `true` when nothing was recorded). -/
def Encoder.encoded_extension_addition (self : Encoder) : Bool :=
  self.extension_fields.isEmpty

/-- `Encoder::encode_extensible_bit`: when the constraints are extensible,
force the classification closure (which may panic — the closure is
modelled as an `Except` value) and push the negation of its result;
otherwise push nothing and return `false`. -/
def Encoder.encode_extensible_bit (constraints : List Constraint) (buffer : List Bool)
    (extensible_condition : Except Error Bool) : Except Error (Bool × List Bool) :=
  if Constraints.extensible constraints then do
    let c ← extensible_condition
    let is_in_constraints := !c
    .ok (is_in_constraints, buffer ++ [is_in_constraints])
  else .ok (false, buffer)

/-- `per::log2`: `i128::BITS - (x - 1).leading_zeros()`, the number of
bits needed for the offsets of a range of size `x` (for `x ≥ 1` this is
the ceiling of the base-2 logarithm of `x`; for `x ≤ 0` the source
computes the leading zeros of a negative number, giving 128). -/
def log2 (x : Int) : Nat :=
  if 1 < x then bitLen (x - 1).toNat
  else if x = 1 then 0
  else 128

/-- `Encoder::encode_non_negative_binary_integer`: widen (zero bits are
appended at the tail, as `BitVec::resize` does) or truncate (keeping the
low bits) the byte image to exactly `log2 range` bits, byte-align first
when `range ≥ 256` (the `TWO_FIFTY_SIX` constant is not under `src/`;
modelled from the spec: "byte-aligned first only if range ≥ 256"), then
append. -/
def Encoder.encode_non_negative_binary_integer (aligned : Bool) (buffer : List Bool)
    (range : Int) (bytes : List Nat) : List Bool :=
  let total_bits := log2 range
  let bits := bytesToBits bytes
  let bits :=
    if bits.length < total_bits then bits ++ List.replicate (total_bits - bits.length) false
    else if total_bits < bits.length then bits.drop (bits.length - total_bits)
    else bits
  let buffer := if 256 ≤ range then pad_to_alignment aligned buffer else buffer
  buffer ++ bits

/-- The fragment quantum selection of `encode_unconstrained_length`:
the `(fragment_index, amount)` pair picked for a remaining length of at
least 16384 units. -/
def fragmentChoice (length : Nat) : Nat × Nat :=
  if 65536 ≤ length then (4, 65536)
  else if 49152 ≤ length then (3, 49152)
  else if 32768 ≤ length then (2, 32768)
  else (1, 16384)

/-- The body of `Encoder::encode_unconstrained_length`, with the
recursion depth bounded by structural fuel.  The content callback `f`
receives the unit range `[a, b)` it must produce.  The fragment marker
`0xC0 | fragment_index` and the two-byte form `0x8000 | length` are
written as additions (the combined bits are disjoint: `fragment_index ≤ 4`
and `length < 16384`). -/
def Encoder.encode_unconstrained_length_aux (aligned : Bool) (f : Nat → Nat → List Bool)
    (fuel : Nat) (buffer : List Bool) (length min : Nat) : List Bool :=
  if length ≤ 127 then
    let buffer := buffer ++ byteBits length
    let buffer := pad_to_alignment aligned buffer
    buffer ++ f 0 length
  else if length < 16384 then
    buffer ++ byteBits ((32768 + length) / 256) ++ byteBits ((32768 + length) % 256)
      ++ f 0 length
  else
    let fa := fragmentChoice length
    let buffer := buffer ++ byteBits (192 + fa.1)
    let buffer := buffer ++ f min (min + fa.2)
    if length = 16384 then buffer ++ byteBits 0
    else
      match fuel with
      | 0 => buffer
      | fuel + 1 =>
        Encoder.encode_unconstrained_length_aux aligned f fuel buffer
          (length - fa.2) (min + fa.2)

/-- `Encoder::encode_unconstrained_length`: every recursive step removes
at least one full 16384-unit fragment, so the remaining `length` strictly
decreases and a fuel of `length` strictly bounds the recursion depth (the
aux function's fuel-exhausted branch is never taken). -/
def Encoder.encode_unconstrained_length (aligned : Bool) (f : Nat → Nat → List Bool)
    (buffer : List Bool) (length min : Nat) : List Bool :=
  Encoder.encode_unconstrained_length_aux aligned f length buffer length min

/-- `Encoder::encode_length`: no size constraint means the unconstrained
form; a non-extensible constraint is checked first (invalid lengths are
the recoverable `InvalidLength` error); with both bounds the range picks
the zero-length, fixed-length, offset, or unconstrained form. -/
def Encoder.encode_length (aligned : Bool) (buffer : List Bool) (length : Nat)
    (constraints : Option (ExtensibleC (RangeC Nat))) (f : Nat → Nat → List Bool) :
    Except Error (List Bool) :=
  match constraints with
  | none => .ok (Encoder.encode_unconstrained_length aligned f buffer length 0)
  | some constraints =>
    match (if constraints.extensible = none
           then Error.check_length length constraints.constraint
           else .ok ()) with
    | .error e => .error e
    | .ok _ =>
      let c := constraints.constraint
      match c.start, c.stop with
      | some _, some _ =>
        let range := c.rangeUsize.getD 0
        if range = 0 then .ok buffer
        else if range = 1 then .ok (buffer ++ f 0 length)
        else if range < 65536 ∧ aligned = false then
          let effective_length := c.effective_value length
          let buffer := Encoder.encode_non_negative_binary_integer aligned buffer
            (range : Int) (bytesBEFixed (effective_length % 2 ^ 32) 4)
          .ok (buffer ++ f 0 length)
        else .ok (Encoder.encode_unconstrained_length aligned f buffer length 0)
      | _, _ => .ok (Encoder.encode_unconstrained_length aligned f buffer length 0)

/-- The tail of `Encoder::encode_integer_into_buffer` (everything after
the extensible bit, enc.rs 443–468): either the unconstrained
length-prefixed signed form, or the offset/raw bytes, packed fixed-width
when the value range is known and below 65536 and length-prefixed
otherwise.  `offset.to_biguint().unwrap()` panics on a negative offset;
that path (an out-of-root-range extension value) is outside the contract
and is modelled by `Int.toNat`. -/
def Encoder.encode_integer_value (aligned : Bool)
    (value_range : Option (ExtensibleC (RangeC Int)))
    (size_constraint : Option (ExtensibleC (RangeC Nat)))
    (value : Int) (buffer : List Bool) : Except Error (List Bool) :=
  match value_range with
  | none =>
    let bytes := to_signed_bytes_be value
    Encoder.encode_length aligned buffer bytes.length size_constraint
      (fun a b => bytesToBits ((bytes.drop a).take (b - a)))
  | some value_range =>
    let bytes :=
      match value_range.constraint.effective_bigint_value value with
      | .inl offset => to_bytes_be offset.toNat
      | .inr v => to_signed_bytes_be v
    match value_range.constraint.rangeI128.filter (fun range => decide (range < 65536)) with
    | some range =>
      .ok (Encoder.encode_non_negative_binary_integer aligned buffer range bytes)
    | none =>
      Encoder.encode_length aligned buffer bytes.length none
        (fun a b => bytesToBits ((bytes.drop a).take (b - a)))

/-- The body of `Encoder::encode_integer_into_buffer`: the extensible
bit, then the `let Some(value_range) = constraints.value() else { … }`
dispatch of `encode_integer_value` above over `constraints.value()` and
`constraints.size()`. -/
def Encoder.encode_integer_into_buffer (aligned : Bool) (constraints : List Constraint)
    (value : Int) (buffer : List Bool) : Except Error (List Bool) := do
  let (_, buffer) ← Encoder.encode_extensible_bit constraints buffer
    (.ok ((Constraints.value constraints).elim false fun value_range =>
      value_range.extensible.isSome && value_range.constraint.bigint_contains value))
  Encoder.encode_integer_value aligned (Constraints.value constraints)
    (Constraints.size constraints) value buffer

/-- `Encoder::encode_normally_small_integer`: one flag bit (1 when the
value is at least 64), then the value under a `[0,63]` bound (small case)
or a semi-constrained-from-zero bound (large case). -/
def Encoder.encode_normally_small_integer (aligned : Bool) (value : Nat)
    (buffer : List Bool) : Except Error (List Bool) :=
  let is_large := 64 ≤ value
  let buffer := buffer ++ [decide is_large]
  let size_constraints : Constraint :=
    if is_large then .value ⟨⟨some 0, none⟩, none⟩
    else .value ⟨⟨some 0, some 63⟩, none⟩
  Encoder.encode_integer_into_buffer aligned [size_constraints] (value : Int) buffer

/-- `Encoder::encode_constructed`: extensibility bit (1 iff the child
recorded extension-addition blocks), the child's presence flags in tag
order, alignment padding, the child's body, all merged into the parent;
then — when extension blocks exist — the count/wrapped-block material is
assembled into a second, local buffer which the source never appends to
anything (only its error, if any, propagates). -/
def Encoder.encode_constructed (self : Encoder) (tag : Tag) (constraints : List Constraint)
    (encoder : Encoder) : Except Error Encoder := do
  let buffer : List Bool := []
  let (_, buffer) ← Encoder.encode_extensible_bit constraints buffer
    (.ok encoder.encoded_extension_addition)
  let buffer := buffer ++ encoder.field_bitfield.map Prod.snd
  let extension_fields := encoder.extension_fields
  let encoder := { encoder with extension_fields := [] }
  let buffer := pad_to_alignment self.options.aligned buffer
  let buffer := buffer ++ encoder.bitstring_output
  let self := self.extend tag (.bits buffer)
  if extension_fields.isEmpty then
    .ok self
  else do
    let bitfield_length := extension_fields.length
    let buffer2 : List Bool := []
    let bitfield ← Encoder.encode_normally_small_integer self.options.aligned
      bitfield_length []
    let buffer2 ← Encoder.encode_length self.options.aligned buffer2 bitfield.length none
      (fun a b => (bitfield.drop a).take (b - a))
    let _buffer2 ← extension_fields.foldlM
      (fun buf field => Encoder.encode_length self.options.aligned buf field.length none
        (fun a b => bytesToBits ((field.drop a).take (b - a)))) buffer2
    .ok self

/-- `Encoder::encode_octet_string_into_buffer`: the extensible-bit
closure here is the literal `todo!()`; then the unconstrained form
without a size constraint, and with one either the unconstrained form
(extension present), nothing (effective length zero), or the constrained
length form. -/
def Encoder.encode_octet_string_into_buffer (aligned : Bool) (constraints : List Constraint)
    (value : List Nat) (buffer : List Bool) : Except Error (List Bool) := do
  let (extensible_is_present, buffer) ←
    Encoder.encode_extensible_bit constraints buffer (.error .todoPanic)
  match Constraints.size constraints with
  | none =>
    Encoder.encode_length aligned buffer value.length none
      (fun a b => bytesToBits ((value.drop a).take (b - a)))
  | some sc =>
    if extensible_is_present then
      Encoder.encode_length aligned buffer value.length none
        (fun a b => bytesToBits ((value.drop a).take (b - a)))
    else if sc.constraint.effective_value value.length = 0 then
      .ok buffer
    else
      Encoder.encode_length aligned buffer value.length (some sc)
        (fun a b => bytesToBits ((value.drop a).take (b - a)))

/-- `Encoder::encode_bit_string` (the trait method): same shape as the
octet-string path, with the value measured and sliced in bits, and the
buffer merged into the encoder at the end. -/
def Encoder.encode_bit_string (self : Encoder) (tag : Tag) (constraints : List Constraint)
    (value : List Bool) : Except Error Encoder := do
  let buffer : List Bool := []
  let (extensible_is_present, buffer) ←
    Encoder.encode_extensible_bit constraints buffer (.error .todoPanic)
  let size := Constraints.size constraints
  let buffer ←
    if extensible_is_present || size.isNone then
      Encoder.encode_length self.options.aligned buffer value.length none
        (fun a b => (value.drop a).take (b - a))
    else if (size.map fun sc => sc.constraint.effective_value value.length) = some 0 then
      .ok buffer
    else
      Encoder.encode_length self.options.aligned buffer value.length size
        (fun a b => (value.drop a).take (b - a))
  .ok (self.extend tag (.bits buffer))

/-- `Encoder::encode_extension_addition` with the generic inner
`E::encode_with_tag_and_constraints` run abstracted into its two
observable results: the child's byte output and the final presence flag
the child left at `tag` (the flag is initialised to `true` and the encode
call may clear it, e.g. `encode_none`).  The recorded block is the
child's bytes when the flag stayed set and the empty block otherwise. -/
def Encoder.encode_extension_addition (self : Encoder) (childOutput : List Nat)
    (childBit : Bool) : Except Error Encoder := do
  let _ ← self.require_fields
  if childBit then
    .ok { self with extension_fields := self.extension_fields ++ [childOutput] }
  else
    .ok { self with extension_fields := self.extension_fields ++ [[]] }

/-- The variant descriptors of a CHOICE type: `E::VARIANTS` (the root
alternatives' tags) and `E::EXTENDED_VARIANTS`, as consumed by
`encode_choice`. -/
structure ChoiceDescr where
  variants : List Tag
  extended_variants : List Tag

/-- The index search of `encode_choice`:
`variants.iter().enumerate().find_map(|(i, t)| (tag == t).then(|| i))`. -/
def findVariantIndex (tag : Tag) : List Tag → Nat → Option Nat
  | [], _ => none
  | v :: rest, i => if tag = v then some i else findVariantIndex tag rest (i + 1)

/-- `Encoder::encode_choice` with the caller's `encode_fn` run abstracted
into its two observable results: the tag it returns and the output bits
it left in the fresh choice encoder.  Root alternatives of a plural root
set get a fixed-width index under the bound `[0, variance]` followed by
the raw choice bits; extension alternatives get a normally-small index,
alignment padding and the open-type octet wrapping of the choice bytes;
a singleton root set falls into the `(_, None)` arm, which appends
nothing further to the buffer. -/
def Encoder.encode_choice (self : Encoder) (constraints : List Constraint)
    (descr : ChoiceDescr) (tag : Tag) (choice_output : List Bool) : Except Error Encoder := do
  let buffer : List Bool := []
  let choice_encoder : Encoder :=
    { Encoder.new self.options.without_set_encoding with output := choice_output }
  let is_root_extension := descr.variants.contains tag
  let (_, buffer) ← Encoder.encode_extensible_bit constraints buffer (.ok is_root_extension)
  let variants := if is_root_extension then descr.variants else descr.extended_variants
  match findVariantIndex tag variants 0 with
  | none => .error (.custom "variant not found in choice")
  | some index =>
    let bounds : Option (Option Nat) :=
      if is_root_extension then
        (if variants.length ≠ 1 then some (some variants.length) else none)
      else some none
    match bounds with
    | some (some variance) => do
      let buffer ← Encoder.encode_integer_into_buffer self.options.aligned
        [Constraint.value ⟨⟨some 0, some (variance : Int)⟩, none⟩] (index : Int) buffer
      let buffer := buffer ++ choice_encoder.output
      .ok (self.extend tag (.bits buffer))
    | some none => do
      let buffer ← Encoder.encode_normally_small_integer self.options.aligned index buffer
      let buffer := pad_to_alignment self.options.aligned buffer
      let buffer ← Encoder.encode_octet_string_into_buffer self.options.aligned []
        choice_encoder.output_vec buffer
      .ok (self.extend tag (.bits buffer))
    | none => .ok (self.extend tag (.bits buffer))

/-- A SET value under construction: the sequence of
(tag, already-encoded field bits) pairs fed to the set encoder through
`Encoder::extend`, in the order the construction visits them. -/
def Encoder.encode_set_fields (self : Encoder) (cfields : List Field)
    (values : List (Tag × List Bool)) : Encoder :=
  values.foldl (fun e p => e.extend p.1 (.bits p.2)) (self.new_set_encoder cfields)

/-- The concrete child aggregate used to evaluate `encode_constructed` on
an extension-carrying input: an 8-bit root body and one recorded
non-empty extension-addition block. -/
def c1child : Encoder :=
  { Encoder.new ⟨false, false⟩ with
    output := byteBits 0xAB
    extension_fields := [[0xCD]] }

/- ------------------------------------------------------------------ -/
/- Helper lemmas shared between the claim theorems.                    -/
/- ------------------------------------------------------------------ -/

theorem byteBits_length (b : Nat) : (byteBits b).length = 8 := by
  simp [byteBits]

theorem pad_to_alignment_false (buffer : List Bool) :
    pad_to_alignment false buffer = buffer := by
  simp [pad_to_alignment]

theorem pad_to_alignment_of_mod8 (aligned : Bool) (l : List Bool)
    (h : l.length % 8 = 0) : pad_to_alignment aligned l = l := by
  simp [pad_to_alignment, h]

theorem bitsToBytes_ne_nil (l : List Bool) (h : l ≠ []) : bitsToBytes l ≠ [] := by
  cases l with
  | nil => exact absurd rfl h
  | cons a as => simp [bitsToBytes, bitsToBytesAux]

theorem btreeInsert_ne_nil {α : Type} (m : List (Nat × α)) (k : Nat) (v : α) :
    btreeInsert m k v ≠ [] := by
  cases m with
  | nil => simp [btreeInsert]
  | cons p rest =>
    obtain ⟨k', v'⟩ := p
    simp only [btreeInsert]
    split
    · simp
    split <;> simp

theorem foldl_btreeInsert_ne_nil {α : Type} :
    ∀ (l : List (Nat × α)) (m : List (Nat × α)), m ≠ [] ∨ l ≠ [] →
      l.foldl (fun m p => btreeInsert m p.1 p.2) m ≠ []
  | [], m, h => by
    rcases h with h | h
    · simpa using h
    · exact absurd rfl h
  | p :: t, m, _ => by
    simp only [List.foldl_cons]
    exact foldl_btreeInsert_ne_nil t _ (Or.inl (btreeInsert_ne_nil _ _ _))

/- ------------------------------------------------------------------ -/
/- C2                                                                  -/
/- ------------------------------------------------------------------ -/

set_option maxRecDepth 10000 in
/-- C2: the claim states that a doubly-bounded constraint always yields
the range `end - start + 1` (so bounds `(1, 1)` give range 1 and the
content of the fixed-length form is emitted).  The code computes
`end.wrapping_sub(start) + (start == 0 ? 1 : 0)`: bounds `(1, 1)` give
range 0, so `encode_length` silently emits neither a length determinant
nor the content; bounds `(1, 256)` on the integer side give 255 instead
of 256.  This evaluates the code at those failing inputs. -/
theorem C2_range_off_by_one :
    RangeC.rangeUsize ⟨some 1, some 1⟩ = some 0
    ∧ RangeC.rangeI128 ⟨some 1, some 256⟩ = some 255
    ∧ Encoder.encode_length false [] 1 (some ⟨⟨some 1, some 1⟩, none⟩)
        (fun _ _ => byteBits 0xFF) = .ok [] := by
  decide

/- ------------------------------------------------------------------ -/
/- C3                                                                  -/
/- ------------------------------------------------------------------ -/

set_option maxRecDepth 10000 in
/-- C3: the claim states that a CHOICE whose root variant set has exactly
one member encodes as exactly the alternative's own bytes.  In the code
the `(_, None)` arm of `encode_choice` appends nothing, so the
alternative's bits (here `101`) are discarded entirely and the encoder is
returned unchanged with an empty output. -/
theorem C3_single_choice_payload_dropped :
    Encoder.encode_choice (Encoder.new ⟨false, false⟩) [] ⟨[7], []⟩ 7 [true, false, true]
      = .ok (Encoder.new ⟨false, false⟩)
    ∧ (Encoder.new ⟨false, false⟩).output = [] := by
  decide

/- ------------------------------------------------------------------ -/
/- C10                                                                 -/
/- ------------------------------------------------------------------ -/

/-- C10: the assembled bit output (the tag-ordered SET concatenation
under set encoding, the plain buffer otherwise) is padded with zero bits
to exactly 8 bits when it is shorter than 8 bits, is left untouched when
it already has 8 or more bits, and the byte output of a top-level encode
is therefore never empty. -/
theorem C10_min_one_byte_output (self : Encoder) (raw : List Bool)
    (hraw : raw = if self.options.set_encoding
      then (self.set_output.map Prod.snd).flatten else self.output) :
    8 ≤ self.bitstring_output.length
    ∧ 1 ≤ self.output_vec.length
    ∧ (raw.length < 8 →
        self.bitstring_output = raw ++ List.replicate (8 - raw.length) false)
    ∧ (8 ≤ raw.length → self.bitstring_output = raw) := by
  have hb : self.bitstring_output =
      if raw.length < 8 then raw ++ List.replicate (8 - raw.length) false else raw := by
    simp only [Encoder.bitstring_output]
    rw [← hraw]
  have hlen : 8 ≤ self.bitstring_output.length := by
    rw [hb]
    by_cases h : raw.length < 8
    · rw [if_pos h]; simp; omega
    · rw [if_neg h]; omega
  have hbytes : 1 ≤ self.output_vec.length := by
    have hne : self.bitstring_output ≠ [] := by
      intro hnil
      rw [hnil] at hlen
      simp at hlen
    have := bitsToBytes_ne_nil _ hne
    rw [Encoder.output_vec]
    exact List.length_pos.mpr this
  refine ⟨hlen, hbytes, fun h => ?_, fun h => ?_⟩
  · rw [hb, if_pos h]
  · rw [hb, if_neg (by omega)]

/-- Witness for C10 at a concrete encoder: a fresh unaligned encoder has
an empty raw output, which is padded to exactly eight zero bits and one
zero byte. -/
theorem C10_witness :
    (Encoder.new ⟨false, false⟩).bitstring_output = List.replicate 8 false
    ∧ 1 ≤ (Encoder.new ⟨false, false⟩).output_vec.length := by
  have h := C10_min_one_byte_output (Encoder.new ⟨false, false⟩) [] rfl
  refine ⟨?_, h.2.1⟩
  have := h.2.2.1 (by simp)
  simpa using this

/- ------------------------------------------------------------------ -/
/- C9                                                                  -/
/- ------------------------------------------------------------------ -/

set_option maxRecDepth 10000 in
/-- C9 counterexample: the claim states the field-presence fatality
occurs exactly on non-aggregate scopes and that an aggregate scope never
triggers it.  But `require_fields` tests only whether the presence map is
empty, and the aggregate (sequence) scope of a type whose fields are all
required has an empty presence map: `set_bit` on it panics. -/
theorem C9_counterexample_aggregate_panics :
    (Encoder.new_sequence_encoder (Encoder.new ⟨false, false⟩)
        [⟨0, .required⟩]).field_bitfield = []
    ∧ Encoder.set_bit
        (Encoder.new_sequence_encoder (Encoder.new ⟨false, false⟩) [⟨0, .required⟩])
        0 true = .error .fieldsPanic := by
  decide

/-- C9 as amended: the field-presence operations (`set_bit`, hence
`encode_some`/`encode_none`, and `encode_extension_addition`) are fatal
exactly when the scope's presence map is empty; every non-aggregate scope
(a fresh `Encoder::new`) has an empty map, and an aggregate scope has a
non-empty map (and so never panics) iff its type has at least one
optional or default field. -/
theorem C9_fields_panic_iff_empty (self : Encoder) (tag : Tag) (bit : Bool)
    (childOutput : List Nat) (childBit : Bool) :
    (self.set_bit tag bit = .error .fieldsPanic ↔ self.field_bitfield = [])
    ∧ (self.encode_extension_addition childOutput childBit = .error .fieldsPanic
        ↔ self.field_bitfield = [])
    ∧ (∀ opts, (Encoder.new opts).field_bitfield = [])
    ∧ (∀ fields, (∃ f ∈ fields, f.presence ≠ FieldPresence.required) →
        (self.new_sequence_encoder fields).field_bitfield ≠ [])
    ∧ (∀ fields, (∃ f ∈ fields, f.presence ≠ FieldPresence.required) →
        (self.new_set_encoder fields).field_bitfield ≠ []) := by
  have hempty : self.field_bitfield.isEmpty = true ↔ self.field_bitfield = [] :=
    List.isEmpty_iff
  refine ⟨?_, ?_, fun _ => rfl, fun fields hf => ?_, fun fields hf => ?_⟩
  · constructor
    · intro h
      by_contra hne
      have hne' : self.field_bitfield.isEmpty = false := by
        rcases hb : self.field_bitfield.isEmpty with _ | _
        · rfl
        · exact absurd (hempty.mp hb) hne
      simp [Encoder.set_bit, Encoder.require_fields, hne', except_bind_ok] at h
    · intro h
      simp [Encoder.set_bit, Encoder.require_fields, h, except_bind_error]
  · constructor
    · intro h
      by_contra hne
      have hne' : self.field_bitfield.isEmpty = false := by
        rcases hb : self.field_bitfield.isEmpty with _ | _
        · rfl
        · exact absurd (hempty.mp hb) hne
      rcases childBit with _ | _ <;>
        simp [Encoder.encode_extension_addition, Encoder.require_fields, hne',
          except_bind_ok] at h
    · intro h
      rcases childBit with _ | _ <;>
        simp [Encoder.encode_extension_addition, Encoder.require_fields, h,
          except_bind_error]
  · obtain ⟨f, hmem, hopt⟩ := hf
    have hfilter : f ∈ optional_and_default_fields fields := by
      simp [optional_and_default_fields, List.mem_filter, hmem]
      simpa using hopt
    have hne : (optional_and_default_fields fields).map (fun f => (f.tag, false)) ≠ [] := by
      intro hnil
      have := List.mem_map_of_mem (fun f => (f.tag, false)) hfilter
      rw [hnil] at this
      simp at this
    exact foldl_btreeInsert_ne_nil _ _ (Or.inr hne)
  · obtain ⟨f, hmem, hopt⟩ := hf
    have hmem' : f ∈ canonised fields := by
      unfold canonised
      exact ((List.mergeSort_perm fields _).mem_iff).mpr hmem
    have hfilter : f ∈ optional_and_default_fields (canonised fields) := by
      simp [optional_and_default_fields, List.mem_filter, hmem']
      simpa using hopt
    have hne : (optional_and_default_fields (canonised fields)).map
        (fun f => (f.tag, false)) ≠ [] := by
      intro hnil
      have := List.mem_map_of_mem (fun f => (f.tag, false)) hfilter
      rw [hnil] at this
      simp at this
    exact foldl_btreeInsert_ne_nil _ _ (Or.inr hne)

/- ------------------------------------------------------------------ -/
/- C5                                                                  -/
/- ------------------------------------------------------------------ -/

/-- C5: for the unconstrained length form, length 127 emits the single
determinant byte `0x7F` then the content; length 128 emits the two bytes
`0x80 0x80` (top two bits `10`) then the content; length 16384 emits the
fragment marker `0xC1`, the full 16384-unit content, and a terminating
zero byte.  This holds for any content callback and both variants (the
byte-boundary padding after a one-byte determinant is a no-op here). -/
theorem C5_length_form_boundaries (aligned : Bool) (f : Nat → Nat → List Bool) :
    Encoder.encode_unconstrained_length aligned f [] 127 0 = byteBits 0x7F ++ f 0 127
    ∧ Encoder.encode_unconstrained_length aligned f [] 128 0
        = byteBits 0x80 ++ byteBits 0x80 ++ f 0 128
    ∧ Encoder.encode_unconstrained_length aligned f [] 16384 0
        = byteBits 0xC1 ++ f 0 16384 ++ byteBits 0x00
    ∧ byteBits 0x7F = [false, true, true, true, true, true, true, true] := by
  refine ⟨?_, ?_, ?_, by decide⟩
  · unfold Encoder.encode_unconstrained_length Encoder.encode_unconstrained_length_aux
    norm_num
    rw [pad_to_alignment_of_mod8 aligned _ (by simp [byteBits_length])]
  · unfold Encoder.encode_unconstrained_length Encoder.encode_unconstrained_length_aux
    norm_num
  · unfold Encoder.encode_unconstrained_length Encoder.encode_unconstrained_length_aux
    norm_num [fragmentChoice]

/- ------------------------------------------------------------------ -/
/- C1                                                                  -/
/- ------------------------------------------------------------------ -/

set_option maxRecDepth 10000 in
/-- C1: the claim states the extension-addition material (count via the
normally-small-integer form, per-slot bitmap, wrapped blocks) appears in
the final output after the root body.  Evaluating `encode_constructed`
on a child that recorded the non-empty block `[0xCD]` shows the parent
output holds only the extensibility bit and the 8-bit root body: the
count/wrapped-block buffer is assembled into a local buffer that the
source never appends, and no per-slot bitmap is built anywhere. -/
theorem C1_extension_material_discarded :
    Encoder.encode_constructed (Encoder.new ⟨false, false⟩) 0 [Constraint.extensible] c1child
      = .ok { Encoder.new ⟨false, false⟩ with output := true :: byteBits 0xAB }
    ∧ (true :: byteBits 0xAB).length = 9 := by
  decide

/- ------------------------------------------------------------------ -/
/- C4                                                                  -/
/- ------------------------------------------------------------------ -/

theorem wrappingSubI128_eq (e s : Int) (h0 : 0 ≤ e - s) (h1 : e - s < 2 ^ 127) :
    wrappingSubI128 e s = e - s := by
  unfold wrappingSubI128
  have hk : (Int.ofNat (2 ^ 127)) = (2 : Int) ^ 127 := by norm_num
  have hk2 : (Int.ofNat (2 ^ 128)) = (2 : Int) ^ 128 := by norm_num
  rw [hk, hk2, Int.emod_eq_of_lt (by omega) (by omega)]
  omega

theorem nnbi_nil_unaligned_length (range : Int) (bytes : List Nat) :
    (Encoder.encode_non_negative_binary_integer false [] range bytes).length
      = log2 range := by
  unfold Encoder.encode_non_negative_binary_integer
  simp only [pad_to_alignment_false, ite_self, List.nil_append]
  split
  · simp only [List.length_append, List.length_replicate]
    omega
  · split
    · simp only [List.length_drop]
      omega
    · omega

theorem findVariantIndex_contains (tag : Tag) :
    ∀ (l : List Tag) (n i : Nat), findVariantIndex tag l n = some i →
      l.contains tag = true
  | [], n, i, h => by simp [findVariantIndex] at h
  | v :: rest, n, i, h => by
    by_cases hv : tag = v
    · simp [List.contains_cons, hv]
    · have h' : findVariantIndex tag rest (n + 1) = some i := by
        simpa [findVariantIndex, hv] using h
      have hm : tag ∈ rest := by
        simpa using findVariantIndex_contains tag rest (n + 1) i h'
      simp [List.contains_cons, hm]

theorem encode_integer_value_fixed (aligned : Bool) (vr : ExtensibleC (RangeC Int))
    (sc : Option (ExtensibleC (RangeC Nat))) (value : Int) (buffer : List Bool)
    (range off : Int)
    (hf : vr.constraint.rangeI128.filter (fun r => decide (r < 65536)) = some range)
    (he : vr.constraint.effective_bigint_value value = Sum.inl off) :
    Encoder.encode_integer_value aligned (some vr) sc value buffer
      = .ok (Encoder.encode_non_negative_binary_integer aligned buffer range
          (to_bytes_be off.toNat)) := by
  simp only [Encoder.encode_integer_value]
  rw [he, hf]

set_option maxRecDepth 10000 in
theorem encode_integer_into_buffer_small_bounded (N i : Nat) (hN : N < 65535) :
    Encoder.encode_integer_into_buffer false
      [Constraint.value ⟨⟨some 0, some (N : Int)⟩, none⟩] (i : Int) []
      = .ok (Encoder.encode_non_negative_binary_integer false []
          ((N : Int) + 1) (to_bytes_be i)) := by
  have hrange : RangeC.rangeI128 ⟨some 0, some (N : Int)⟩ = some ((N : Int) + 1) := by
    show some (wrappingSubI128 (N : Int) 0 + 1) = some ((N : Int) + 1)
    rw [wrappingSubI128_eq (N : Int) 0 (by omega) (by omega)]
    norm_num
  have hfilter : Option.filter (fun r => decide (r < 65536))
      (RangeC.rangeI128 ⟨some 0, some (N : Int)⟩) = some ((N : Int) + 1) := by
    rw [hrange, Option.filter]
    simp only [decide_eq_true_eq]
    rw [if_pos (by omega : (N : Int) + 1 < 65536)]
  have heff : RangeC.effective_bigint_value ⟨some 0, some (N : Int)⟩ (i : Int)
      = Sum.inl (i : Int) := by
    show Sum.inl ((i : Int) - 0) = Sum.inl (i : Int)
    rw [show ((i : Int) - 0) = (i : Int) by omega]
  unfold Encoder.encode_integer_into_buffer
  rw [show Encoder.encode_extensible_bit
      [Constraint.value ⟨⟨some 0, some (N : Int)⟩, none⟩] []
      (.ok ((Constraints.value [Constraint.value ⟨⟨some 0, some (N : Int)⟩, none⟩]).elim
        false fun value_range =>
          value_range.extensible.isSome
            && value_range.constraint.bigint_contains (i : Int)))
      = .ok (false, []) from rfl, except_bind_ok]
  show Encoder.encode_integer_value false
      (Constraints.value [Constraint.value ⟨⟨some 0, some (N : Int)⟩, none⟩])
      (Constraints.size [Constraint.value ⟨⟨some 0, some (N : Int)⟩, none⟩]) (i : Int) []
      = Except.ok (Encoder.encode_non_negative_binary_integer false []
          ((N : Int) + 1) (to_bytes_be i))
  rw [show Constraints.value [Constraint.value ⟨⟨some 0, some (N : Int)⟩, none⟩]
      = some ⟨⟨some 0, some (N : Int)⟩, none⟩ from rfl]
  rw [encode_integer_value_fixed false ⟨⟨some 0, some (N : Int)⟩, none⟩
      (Constraints.size [Constraint.value ⟨⟨some 0, some (N : Int)⟩, none⟩])
      (i : Int) [] ((N : Int) + 1) (i : Int) hfilter heff]
  rw [show ((i : Int)).toNat = i by omega]

/-- C4 as amended: a root alternative of a root set of `N > 1` members is
encoded (unaligned) as the index packed fixed-width under the bound
`[0, N]` — i.e. `ceil(log2(N + 1))` bits, one more candidate bit than the
claimed `ceil(log2 N)` — immediately followed by the alternative's raw
bits with no further wrapping. -/
theorem C4_choice_root_index_width_amended
    (variants extended : List Tag) (tag : Tag) (alt : List Bool) (i : Nat)
    (cs : List Constraint) (e : Encoder)
    (hopts : e.options = ⟨false, false⟩)
    (hext : Constraints.extensible cs = false)
    (hfind : findVariantIndex tag variants 0 = some i)
    (hlen : variants.length ≠ 1) (hsize : variants.length < 65535) :
    Encoder.encode_choice e cs ⟨variants, extended⟩ tag alt
      = .ok { e with
          output := e.output
            ++ (Encoder.encode_non_negative_binary_integer false []
                ((variants.length : Int) + 1) (to_bytes_be i))
            ++ alt }
    ∧ (Encoder.encode_non_negative_binary_integer false []
        ((variants.length : Int) + 1) (to_bytes_be i)).length
      = log2 ((variants.length : Int) + 1) := by
  refine ⟨?_, nnbi_nil_unaligned_length _ _⟩
  have hroot : variants.contains tag = true := findVariantIndex_contains tag variants 0 i hfind
  have hbit : Encoder.encode_extensible_bit cs [] (Except.ok true) = .ok (false, []) := by
    simp [Encoder.encode_extensible_bit, hext]
  have hint := encode_integer_into_buffer_small_bounded variants.length i hsize
  simp only [Encoder.encode_choice]
  simp only [hroot, eq_self_iff_true, if_true, hfind, hopts]
  simp only [hbit, except_bind_ok]
  simp only [if_pos hlen]
  simp only [hint]
  simp only [except_bind_ok]
  simp only [Encoder.extend, hopts]
  rw [if_neg (by decide : ¬ (false = true))]
  simp only [Input.toBits, List.append_assoc]

set_option maxRecDepth 10000 in
/-- C4 counterexample: for a root set of exactly two members the claim
demands a `ceil(log2 2) = 1`-bit discriminant, so choosing the second
alternative with an empty payload would emit the single bit `1`; the
code instead constrains the index to `[0, 2]` and emits the two bits
`01`. -/
theorem C4_counterexample_two_variants :
    Encoder.encode_choice (Encoder.new ⟨false, false⟩) [] ⟨[5, 9], []⟩ 9 []
      = .ok { Encoder.new ⟨false, false⟩ with output := [false, true] }
    ∧ ¬ ([false, true] = [true]) := by
  decide

/-- Witness for C4's amended theorem at a concrete two-variant choice. -/
theorem C4_witness :
    Encoder.encode_choice (Encoder.new ⟨false, false⟩) [] ⟨[5, 9], []⟩ 9 [true]
      = .ok { Encoder.new ⟨false, false⟩ with
          output := (Encoder.new ⟨false, false⟩).output
            ++ (Encoder.encode_non_negative_binary_integer false []
                ((([5, 9] : List Tag).length : Int) + 1) (to_bytes_be 1))
            ++ [true] }
    ∧ (Encoder.encode_non_negative_binary_integer false []
        ((([5, 9] : List Tag).length : Int) + 1) (to_bytes_be 1)).length
      = log2 ((([5, 9] : List Tag).length : Int) + 1) :=
  C4_choice_root_index_width_amended [5, 9] [] 9 [true] 1 []
    (Encoder.new ⟨false, false⟩) rfl rfl (by decide) (by decide) (by decide)

/- ------------------------------------------------------------------ -/
/- C7 and C8: encode_length error shape                                -/
/- ------------------------------------------------------------------ -/

theorem encode_length_invalid (aligned : Bool) (buffer : List Bool) (length : Nat)
    (ec : ExtensibleC (RangeC Nat)) (f : Nat → Nat → List Bool)
    (hx : ec.extensible = none) (hc : ec.constraint.contains length = false) :
    Encoder.encode_length aligned buffer length (some ec) f
      = .error (.invalidLength length ec.constraint) := by
  simp [Encoder.encode_length, hx, Error.check_length, hc]

theorem encode_length_ok_of_check (aligned : Bool) (buffer : List Bool) (length : Nat)
    (ec : ExtensibleC (RangeC Nat)) (f : Nat → Nat → List Bool)
    (h : (if ec.extensible = none then Error.check_length length ec.constraint
          else Except.ok ()) = .ok ()) :
    ∃ bits, Encoder.encode_length aligned buffer length (some ec) f = .ok bits := by
  simp only [Encoder.encode_length, h]
  rcases h1 : ec.constraint.start with _ | s <;> rcases h2 : ec.constraint.stop with _ | e <;>
    simp only [h1, h2]
  · exact ⟨_, rfl⟩
  · exact ⟨_, rfl⟩
  · exact ⟨_, rfl⟩
  · split
    · exact ⟨_, rfl⟩
    · split
      · exact ⟨_, rfl⟩
      · split
        · exact ⟨_, rfl⟩
        · exact ⟨_, rfl⟩

theorem encode_length_error_elim (aligned : Bool) (buffer : List Bool) (length : Nat)
    (c : Option (ExtensibleC (RangeC Nat))) (f : Nat → Nat → List Bool) (e : Error)
    (h : Encoder.encode_length aligned buffer length c f = .error e) :
    ∃ len r, e = .invalidLength len r := by
  cases c with
  | none => simp [Encoder.encode_length] at h
  | some ec =>
    by_cases hx : ec.extensible = none
    · by_cases hc : ec.constraint.contains length = true
      · have hok : (if ec.extensible = none then Error.check_length length ec.constraint
            else Except.ok ()) = .ok () := by
          simp [hx, Error.check_length, hc]
        obtain ⟨bits, hb⟩ := encode_length_ok_of_check aligned buffer length ec f hok
        rw [hb] at h
        cases h
      · have hc' : ec.constraint.contains length = false := by
          rcases hb : ec.constraint.contains length with _ | _
          · rfl
          · exact absurd hb hc
        have := encode_length_invalid aligned buffer length ec f hx hc'
        rw [this] at h
        exact ⟨length, ec.constraint, by cases h; rfl⟩
    · have hok : (if ec.extensible = none then Error.check_length length ec.constraint
          else Except.ok ()) = .ok () := by simp [hx]
      obtain ⟨bits, hb⟩ := encode_length_ok_of_check aligned buffer length ec f hok
      rw [hb] at h
      cases h

theorem encode_length_ne_todoPanic (aligned : Bool) (buffer : List Bool) (length : Nat)
    (c : Option (ExtensibleC (RangeC Nat))) (f : Nat → Nat → List Bool) :
    Encoder.encode_length aligned buffer length c f ≠ .error .todoPanic := by
  intro h
  obtain ⟨len, r, he⟩ := encode_length_error_elim aligned buffer length c f _ h
  cases he

theorem except_bind_ne_error {ε α β : Type} (x : Except ε α) (g : α → β) (e : ε)
    (h : x ≠ .error e) : (x >>= fun a => Except.ok (g a) : Except ε β) ≠ .error e := by
  cases x with
  | error e' =>
    intro hc
    rw [except_bind_error] at hc
    cases hc
    exact h rfl
  | ok a => simp [except_bind_ok]

/-- C7: a declared length under a non-extensible size constraint that
violates the bound makes `encode_length` return the recoverable
invalid-length error carrying the length and the expected range; a length
within the bound, an extensible constraint, or no constraint at all never
produce an invalid-length error (the content callback here is pure, as it
is at every octet-, bit- and byte-slicing call site). -/
theorem C7_check_length_error (aligned : Bool) (buffer : List Bool) (length : Nat)
    (ec : ExtensibleC (RangeC Nat)) (f : Nat → Nat → List Bool) :
    (ec.extensible = none → ec.constraint.contains length = false →
      Encoder.encode_length aligned buffer length (some ec) f
        = .error (.invalidLength length ec.constraint))
    ∧ (ec.extensible ≠ none ∨ ec.constraint.contains length = true →
      ∃ bits, Encoder.encode_length aligned buffer length (some ec) f = .ok bits)
    ∧ (∃ bits, Encoder.encode_length aligned buffer length none f = .ok bits) := by
  refine ⟨fun hx hc => encode_length_invalid aligned buffer length ec f hx hc,
    fun h => ?_, ⟨_, rfl⟩⟩
  have hok : (if ec.extensible = none then Error.check_length length ec.constraint
      else Except.ok ()) = .ok () := by
    rcases h with h | h
    · simp [h]
    · by_cases hx : ec.extensible = none <;> simp [hx, Error.check_length, h]
  exact encode_length_ok_of_check aligned buffer length ec f hok

/-- Witness for C7 at concrete inputs: length 5 violates the
non-extensible bound 1..2 and produces exactly the invalid-length error;
length 2 satisfies it and succeeds. -/
theorem C7_witness :
    Encoder.encode_length false [] 5 (some ⟨⟨some 1, some 2⟩, none⟩) (fun _ _ => [])
      = .error (.invalidLength 5 ⟨some 1, some 2⟩)
    ∧ Encoder.encode_length false [] 2 (some ⟨⟨some 1, some 2⟩, none⟩)
        (fun _ _ => []) = .ok [] := by
  constructor
  · exact (C7_check_length_error false [] 5 ⟨⟨some 1, some 2⟩, none⟩ (fun _ _ => [])).1
      rfl (by decide)
  · decide

/-- C8: with an extensible constraint in the set, both the octet-string
and the bit-string encoders force the extensible-bit classification
closure, which is the `todo!()` panic; with no extensible constraint the
closure is never evaluated and neither encoder can reach that panic (its
other error exits are the recoverable invalid-length error only). -/
theorem C8_todo_branch_iff_extensible (aligned : Bool) (self : Encoder) (tag : Tag)
    (cs : List Constraint) (value : List Nat) (bits : List Bool) (buffer : List Bool) :
    (Constraints.extensible cs = true →
      Encoder.encode_octet_string_into_buffer aligned cs value buffer = .error .todoPanic
      ∧ self.encode_bit_string tag cs bits = .error .todoPanic)
    ∧ (Constraints.extensible cs = false →
      Encoder.encode_octet_string_into_buffer aligned cs value buffer ≠ .error .todoPanic
      ∧ self.encode_bit_string tag cs bits ≠ .error .todoPanic) := by
  constructor
  · intro h
    have hbit : Encoder.encode_extensible_bit cs buffer (.error .todoPanic)
        = .error .todoPanic := by
      simp [Encoder.encode_extensible_bit, h, except_bind_error]
    have hbit' : Encoder.encode_extensible_bit cs [] (.error .todoPanic)
        = (.error .todoPanic : Except Error (Bool × List Bool)) := by
      simp [Encoder.encode_extensible_bit, h, except_bind_error]
    constructor
    · simp [Encoder.encode_octet_string_into_buffer, hbit, except_bind_error]
    · simp [Encoder.encode_bit_string, hbit', except_bind_error]
  · intro h
    have hbit : ∀ b : List Bool, Encoder.encode_extensible_bit cs b (.error .todoPanic)
        = .ok (false, b) := by
      intro b
      simp [Encoder.encode_extensible_bit, h]
    constructor
    · simp only [Encoder.encode_octet_string_into_buffer, hbit, except_bind_ok]
      rcases hs : Constraints.size cs with _ | sc <;> simp only [hs]
      · exact encode_length_ne_todoPanic _ _ _ _ _
      · simp only [Bool.false_eq_true, if_false]
        split
        · simp
        · exact encode_length_ne_todoPanic _ _ _ _ _
    · simp only [Encoder.encode_bit_string, hbit, except_bind_ok]
      split
      · exact except_bind_ne_error _ _ _ (encode_length_ne_todoPanic _ _ _ _ _)
      · split
        · simp
        · exact except_bind_ne_error _ _ _ (encode_length_ne_todoPanic _ _ _ _ _)

/-- Witness for C8 at concrete inputs: an `Extensible` marker makes the
octet-string encoder hit the `todo!()` panic; without it the same call
does not produce that panic. -/
theorem C8_witness :
    Encoder.encode_octet_string_into_buffer false [Constraint.extensible] [1, 2] []
      = .error .todoPanic
    ∧ Encoder.encode_octet_string_into_buffer false [] [1, 2] [] ≠ .error .todoPanic := by
  constructor
  · exact ((C8_todo_branch_iff_extensible false (Encoder.new ⟨false, false⟩) 0
      [Constraint.extensible] [1, 2] [] []).1 rfl).1
  · exact ((C8_todo_branch_iff_extensible false (Encoder.new ⟨false, false⟩) 0
      [] [1, 2] [] []).2 rfl).1

/- ------------------------------------------------------------------ -/
/- C6                                                                  -/
/- ------------------------------------------------------------------ -/

theorem btreeInsert_mem {α : Type} :
    ∀ (m : List (Nat × α)) (k : Nat) (v : α) (x : Nat × α),
      x ∈ btreeInsert m k v → x = (k, v) ∨ x ∈ m
  | [], k, v, x, h => by simpa [btreeInsert] using h
  | (k', v') :: rest, k, v, x, h => by
    simp only [btreeInsert] at h
    split at h
    · rcases List.mem_cons.mp h with h | h
      · exact Or.inl h
      · exact Or.inr h
    · split at h
      · rcases List.mem_cons.mp h with h | h
        · exact Or.inl h
        · exact Or.inr (List.mem_cons_of_mem _ h)
      · rcases List.mem_cons.mp h with h | h
        · exact Or.inr (h ▸ List.mem_cons_self _ _)
        · rcases btreeInsert_mem rest k v x h with h | h
          · exact Or.inl h
          · exact Or.inr (List.mem_cons_of_mem _ h)

theorem btreeInsert_perm {α : Type} :
    ∀ (m : List (Nat × α)) (k : Nat) (v : α), k ∉ m.map Prod.fst →
      (btreeInsert m k v).Perm ((k, v) :: m)
  | [], _, _, _ => by simp [btreeInsert]
  | (k', v') :: rest, k, v, h => by
    simp only [List.map_cons, List.mem_cons] at h
    push_neg at h
    obtain ⟨h1, h2⟩ := h
    simp only [btreeInsert, if_neg h1]
    split
    · exact List.Perm.refl _
    · exact ((btreeInsert_perm rest k v h2).cons (k', v')).trans
        (List.Perm.swap (k, v) (k', v') rest)

theorem foldl_btreeInsert_perm {α : Type} :
    ∀ (l m : List (Nat × α)), (m.map Prod.fst ++ l.map Prod.fst).Nodup →
      (l.foldl (fun m p => btreeInsert m p.1 p.2) m).Perm (l ++ m)
  | [], m, _ => by simp
  | p :: t, m, h => by
    obtain ⟨k, v⟩ := p
    simp only [List.map_cons] at h
    have hk : k ∉ m.map Prod.fst := by
      have hd := (List.nodup_append.mp h).2.2
      intro hc
      exact hd hc (List.mem_cons_self _ _)
    have hperm1 : (btreeInsert m k v).Perm ((k, v) :: m) := btreeInsert_perm m k v hk
    have hmid : (m.map Prod.fst ++ k :: t.map Prod.fst).Perm
        (k :: (m.map Prod.fst ++ t.map Prod.fst)) := List.perm_middle
    have hnodup1 : (k :: (m.map Prod.fst ++ t.map Prod.fst)).Nodup := hmid.nodup h
    have hkeys : ((btreeInsert m k v).map Prod.fst).Perm (k :: m.map Prod.fst) := by
      simpa using hperm1.map Prod.fst
    have hnodup' : ((btreeInsert m k v).map Prod.fst ++ t.map Prod.fst).Nodup := by
      refine ((hkeys.append_right (t.map Prod.fst)).symm).nodup ?_
      simpa [List.cons_append] using hnodup1
    simp only [List.foldl_cons]
    have s1 := foldl_btreeInsert_perm t _ hnodup'
    have s2 := List.Perm.append_left t hperm1
    have s3 : (t ++ (k, v) :: m).Perm ((k, v) :: (t ++ m)) := List.perm_middle
    simpa using (s1.trans s2).trans s3

theorem btreeInsert_pairwise {α : Type} :
    ∀ (m : List (Nat × α)) (k : Nat) (v : α),
      m.Pairwise (fun p q => p.1 < q.1) →
      (btreeInsert m k v).Pairwise (fun p q => p.1 < q.1)
  | [], _, _, _ => by simp [btreeInsert]
  | (k', v') :: rest, k, v, h => by
    rcases List.pairwise_cons.mp h with ⟨hh, ht⟩
    simp only [btreeInsert]
    split
    · next hlt =>
      refine List.pairwise_cons.mpr ⟨?_, h⟩
      intro x hx
      rcases List.mem_cons.mp hx with rfl | hx
      · exact hlt
      · exact lt_trans hlt (hh x hx)
    · next hge =>
      split
      · next heq =>
        refine List.pairwise_cons.mpr ⟨?_, ht⟩
        intro x hx
        rw [heq]
        exact hh x hx
      · next hne =>
        have hk'k : k' < k := by omega
        refine List.pairwise_cons.mpr ⟨?_, btreeInsert_pairwise rest k v ht⟩
        intro x hx
        rcases btreeInsert_mem rest k v x hx with rfl | hx
        · exact hk'k
        · exact hh x hx

theorem foldl_btreeInsert_pairwise {α : Type} :
    ∀ (l m : List (Nat × α)), m.Pairwise (fun p q => p.1 < q.1) →
      (l.foldl (fun m p => btreeInsert m p.1 p.2) m).Pairwise (fun p q => p.1 < q.1)
  | [], _, h => h
  | _ :: t, m, h => by
    simp only [List.foldl_cons]
    exact foldl_btreeInsert_pairwise t _ (btreeInsert_pairwise m _ _ h)

theorem foldl_extend_set :
    ∀ (values : List (Tag × List Bool)) (e : Encoder),
      e.options.set_encoding = true →
      values.foldl (fun e p => e.extend p.1 (.bits p.2)) e
        = { e with set_output :=
            values.foldl (fun m p => btreeInsert m p.1 p.2) e.set_output }
  | [], e, _ => rfl
  | p :: t, e, h => by
    simp only [List.foldl_cons]
    have hx : e.extend p.1 (.bits p.2)
        = { e with set_output := btreeInsert e.set_output p.1 p.2 } := by
      simp [Encoder.extend, h, Input.toBits]
    have hm : ({ e with set_output := btreeInsert e.set_output p.1 p.2 }
        : Encoder).options.set_encoding = true := h
    rw [hx, foldl_extend_set t _ hm]

/-- C6: for any SET scope, feeding the same (tag, encoded bits) fields in
any two construction orders yields the same final bit output; the
accumulated SET map holds exactly the supplied fields and its keys are in
strictly ascending tag order, so the emitted contents are a function of
the tags only, concatenated in ascending tag order. -/
theorem C6_set_encoding_canonical (self : Encoder) (cfields : List Field)
    (l₁ l₂ : List (Tag × List Bool))
    (hperm : l₁.Perm l₂) (hnodup : (l₁.map Prod.fst).Nodup) :
    (self.encode_set_fields cfields l₁).bitstring_output
      = (self.encode_set_fields cfields l₂).bitstring_output
    ∧ (self.encode_set_fields cfields l₁).set_output.Perm l₁
    ∧ ((self.encode_set_fields cfields l₁).set_output.map Prod.fst).Pairwise (· < ·) := by
  have hset : (self.new_set_encoder cfields).options.set_encoding = true := rfl
  have hout : (self.new_set_encoder cfields).set_output = [] := rfl
  have hfold₁ := foldl_extend_set l₁ (self.new_set_encoder cfields) hset
  have hfold₂ := foldl_extend_set l₂ (self.new_set_encoder cfields) hset
  have hnodup₂ : (l₂.map Prod.fst).Nodup := ((hperm.map Prod.fst).nodup_iff).mp hnodup
  have hperm₁ : (l₁.foldl (fun m p => btreeInsert m p.1 p.2) []).Perm l₁ := by
    have := foldl_btreeInsert_perm l₁ [] (by simpa using hnodup)
    simpa using this
  have hperm₂ : (l₂.foldl (fun m p => btreeInsert m p.1 p.2) []).Perm l₂ := by
    have := foldl_btreeInsert_perm l₂ [] (by simpa using hnodup₂)
    simpa using this
  have hsort₁ : (l₁.foldl (fun m p => btreeInsert m p.1 p.2) []).Pairwise
      (fun p q => p.1 < q.1) := foldl_btreeInsert_pairwise l₁ [] (by simp)
  have hsort₂ : (l₂.foldl (fun m p => btreeInsert m p.1 p.2) []).Pairwise
      (fun p q => p.1 < q.1) := foldl_btreeInsert_pairwise l₂ [] (by simp)
  haveI : IsAntisymm (Tag × List Bool) (fun p q => p.1 < q.1) :=
    ⟨fun a b h1 h2 => ((lt_irrefl _ (lt_trans h1 h2)).elim)⟩
  have hmapeq : (l₁.foldl (fun m p => btreeInsert m p.1 p.2) [])
      = (l₂.foldl (fun m p => btreeInsert m p.1 p.2) []) :=
    List.eq_of_perm_of_sorted (hperm₁.trans (hperm.trans hperm₂.symm)) hsort₁ hsort₂
  have henc₁ : self.encode_set_fields cfields l₁
      = { self.new_set_encoder cfields with
          set_output := l₁.foldl (fun m p => btreeInsert m p.1 p.2) [] } := by
    rw [Encoder.encode_set_fields, hfold₁, hout]
  have henc₂ : self.encode_set_fields cfields l₂
      = { self.new_set_encoder cfields with
          set_output := l₂.foldl (fun m p => btreeInsert m p.1 p.2) [] } := by
    rw [Encoder.encode_set_fields, hfold₂, hout]
  refine ⟨?_, ?_, ?_⟩
  · rw [henc₁, henc₂, hmapeq]
  · rw [henc₁]
    exact hperm₁
  · rw [henc₁]
    exact (List.pairwise_map).mpr hsort₁

/-- Witness for C6 at two concrete construction orders of the same
two-field SET value. -/
theorem C6_witness :
    ((Encoder.new ⟨false, false⟩).encode_set_fields []
        [(2, [true]), (1, [false])]).bitstring_output
      = ((Encoder.new ⟨false, false⟩).encode_set_fields []
        [(1, [false]), (2, [true])]).bitstring_output :=
  (C6_set_encoding_canonical (Encoder.new ⟨false, false⟩) []
    [(2, [true]), (1, [false])] [(1, [false]), (2, [true])]
    (by decide) (by decide)).1

/-- Witness for C9's amended theorem at concrete scopes: a fresh encoder
(non-aggregate) panics on `set_bit`; a sequence scope with one optional
field does not. -/
theorem C9_witness :
    (Encoder.new ⟨false, false⟩).set_bit 0 true = .error .fieldsPanic
    ∧ ¬ ((Encoder.new ⟨false, false⟩).new_sequence_encoder
        [⟨0, .optional⟩]).field_bitfield = [] := by
  constructor
  · exact (C9_fields_panic_iff_empty (Encoder.new ⟨false, false⟩) 0 true [] false).1.mpr rfl
  · exact (C9_fields_panic_iff_empty (Encoder.new ⟨false, false⟩) 0 true [] false).2.2.2.1
      [⟨0, .optional⟩] ⟨⟨0, .optional⟩, by simp, by simp⟩

end Rasn
